import Mathlib

/-!
Verification development for the smithy static-site pipeline
(src/lib.rs, src/errors.rs).

Text is modelled as `List Char`.  The YAML parser (`yaml_rust`, an
external crate treated by the design as an opaque capability) is a
parameter `loadYaml : List Char → Except Unit (List Yaml)`, mirroring
`YamlLoader::load_from_str : &str -> Result<Vec<Yaml>, ScanError>`.
Filesystem effects of `Smithy::build` are modelled by an explicit
output-filesystem state; loading (lines 39-53 of lib.rs, WalkDir plus
file reads) is abstracted as the already-loaded document collection
handed to the plugin stage.
-/

namespace Smithy

/-- The front-matter delimiter `"---\n"` from `Document::from_str`. -/
def delim : List Char := ['-', '-', '-', '\n']

/-- Helper for splitting: prepend a character to the first segment of a
segment list (the list is never empty in use). -/
def consHead (c : Char) : List (List Char) → List (List Char)
  | [] => [[c]]
  | s :: ss => (c :: s) :: ss

/-- `text.split("---\n").collect()` from `Document::from_str` line 96:
split on non-overlapping occurrences of the delimiter, left to right. -/
def splitDelim : List Char → List (List Char)
  | [] => [[]]
  | '-' :: '-' :: '-' :: '\n' :: rest => [] :: splitDelim rest
  | c :: rest => consHead c (splitDelim rest)

/-- Number of (non-overlapping, left-to-right) occurrences of the
delimiter in a text. -/
def countDelim : List Char → Nat
  | [] => 0
  | '-' :: '-' :: '-' :: '\n' :: rest => countDelim rest + 1
  | _ :: rest => countDelim rest

/-- Whether a text contains an occurrence of the delimiter. -/
def hasDelim : List Char → Bool
  | [] => false
  | '-' :: '-' :: '-' :: '\n' :: _ => true
  | _ :: rest => hasDelim rest

/-- Whether a text begins with the delimiter line `"---\n"`. -/
def startsWithDelim : List Char → Bool
  | '-' :: '-' :: '-' :: '\n' :: _ => true
  | _ => false

/-- `splits.join("---\n")` from line 100: rejoin segments with the
delimiter. -/
def joinDelim : List (List Char) → List Char
  | [] => []
  | [s] => s
  | s :: ss => s ++ delim ++ joinDelim ss

/-- Rust `char::is_whitespace`: the Unicode White_Space property. -/
def isRustWhitespace (c : Char) : Bool :=
  let n := c.toNat
  n = 0x09 || n = 0x0A || n = 0x0B || n = 0x0C || n = 0x0D || n = 0x20 ||
  n = 0x85 || n = 0xA0 || n = 0x1680 || (0x2000 ≤ n && n ≤ 0x200A) ||
  n = 0x2028 || n = 0x2029 || n = 0x202F || n = 0x205F || n = 0x3000

/-- Rust `str::trim`: remove leading and trailing whitespace. -/
def trimChars (s : List Char) : List Char :=
  ((s.dropWhile isRustWhitespace).reverse.dropWhile isRustWhitespace).reverse

/-- The `yaml_rust::Yaml` value enum (Real, Integer, String, Boolean,
Array, Hash, Alias, Null, BadValue). -/
inductive Yaml where
  | real (s : List Char)
  | integer (i : Int)
  | string (s : List Char)
  | boolean (b : Bool)
  | array (xs : List Yaml)
  | hash (entries : List (Yaml × Yaml))
  | anchorAlias (i : Nat)
  | null
  | badValue

/-- A relative or absolute filesystem path, as a list of components. -/
abbrev Path := List (List Char)

/-- The `Document` struct: parsed metadata, body text, relative path. -/
structure Document where
  metadata : Yaml
  body : List Char
  path : Path

/-- Outcome of `Document::from_str`: either a `Document`, or a panic
(the `unwrap()` or the `[0]` indexing on line 101 failing). -/
inductive FromStrOutcome where
  | panic
  | doc (d : Document)

/-- `Document::from_str` (lib.rs lines 94-106), parametric in the opaque
YAML loader.  `splits.len() >= 3 && splits[0] == ""` is exactly the
pattern `[] :: frontMatterText :: seg2 :: segs`; in that branch the body
is the remaining segments rejoined with the delimiter, trimmed, with one
newline appended, and the metadata is the first document of the parsed
front matter — panicking when the parse fails (`unwrap`) or yields no
documents (`[0]`).  Otherwise metadata is `Yaml::Null` and the body is
the input text verbatim. -/
def fromStr (loadYaml : List Char → Except Unit (List Yaml))
    (path : Path) (text : List Char) : FromStrOutcome :=
  match splitDelim text with
  | [] :: frontMatterText :: seg2 :: segs =>
    let body := trimChars (joinDelim (seg2 :: segs)) ++ ['\n']
    match loadYaml frontMatterText with
    | .error _ => .panic
    | .ok [] => .panic
    | .ok (fm :: _) => .doc ⟨fm, body, path⟩
  | _ => .doc ⟨Yaml.null, text, path⟩

/-- A loader that fails on every input, standing in for a YAML parse
error on a malformed front-matter segment. -/
def failLoader : List Char → Except Unit (List Yaml) :=
  fun _ => .error ()

/-- A loader that returns zero parsed documents on every input, as
`yaml_rust` does on empty front-matter text. -/
def emptyLoader : List Char → Except Unit (List Yaml) :=
  fun _ => .ok []

/-- A loader that returns one parsed document on every input. -/
def nullDocLoader : List Char → Except Unit (List Yaml) :=
  fun _ => .ok [Yaml.null]

theorem splitDelim_cons_ne (c : Char) (rest : List Char)
    (h : ∀ (r : List Char), c = '-' → rest = '-' :: '-' :: '\n' :: r → False) :
    splitDelim (c :: rest) = consHead c (splitDelim rest) := by
  rw [splitDelim.eq_def]
  split
  · rename_i heq
    exact absurd heq (by simp)
  · rename_i r heq
    exfalso
    have hc : c = '-' := by injection heq
    have hr : rest = '-' :: '-' :: '\n' :: r := by injection heq
    exact h r hc hr
  · rename_i c2 rest2 hx heq
    have hc : c = c2 := by injection heq
    have hr : rest = rest2 := by injection heq
    rw [hc, hr]

theorem splitDelim_ne_nil (s : List Char) : splitDelim s ≠ [] := by
  induction s using splitDelim.induct with
  | case1 => simp [splitDelim]
  | case2 rest ih => simp [splitDelim]
  | case3 c rest h ih =>
    rw [splitDelim_cons_ne c rest h]
    cases hs : splitDelim rest with
    | nil => exact absurd hs ih
    | cons a l => simp [consHead]

theorem hasDelim_cons_ne (c : Char) (rest : List Char)
    (h : ∀ (r : List Char), c = '-' → rest = '-' :: '-' :: '\n' :: r → False) :
    hasDelim (c :: rest) = hasDelim rest := by
  rw [hasDelim.eq_def]
  split
  · rename_i heq
    exact absurd heq (by simp)
  · rename_i r heq
    exfalso
    have hc : c = '-' := by injection heq
    have hr : rest = '-' :: '-' :: '\n' :: r := by injection heq
    exact h r hc hr
  · rename_i c2 rest2 hx heq
    have hr : rest = rest2 := by injection heq
    rw [hr]

theorem countDelim_cons_ne (c : Char) (rest : List Char)
    (h : ∀ (r : List Char), c = '-' → rest = '-' :: '-' :: '\n' :: r → False) :
    countDelim (c :: rest) = countDelim rest := by
  rw [countDelim.eq_def]
  split
  · rename_i heq
    exact absurd heq (by simp)
  · rename_i r heq
    exfalso
    have hc : c = '-' := by injection heq
    have hr : rest = '-' :: '-' :: '\n' :: r := by injection heq
    exact h r hc hr
  · rename_i c2 rest2 hx heq
    have hr : rest = rest2 := by injection heq
    rw [hr]

theorem splitDelim_delim_append (s : List Char) :
    splitDelim (delim ++ s) = [] :: splitDelim s := rfl

theorem splitDelim_noDelim_append (s t : List Char) (hs : hasDelim s = false) :
    splitDelim (s ++ delim ++ t) = s :: splitDelim t := by
  induction s using splitDelim.induct with
  | case1 => exact splitDelim_delim_append t
  | case2 rest ih =>
    rw [hasDelim] at hs
    exact absurd hs (by simp)
  | case3 c rest h ih =>
    rw [hasDelim_cons_ne c rest h] at hs
    have hex : ∀ (r : List Char), c = '-' →
        rest ++ delim ++ t = '-' :: '-' :: '\n' :: r → False := by
      intro r hc heq
      match rest, heq with
      | [], heq =>
        simp [delim] at heq
      | [x], heq =>
        have h2 : '-' = '\n' := by
          injection heq with h1 heq; injection heq with h2 heq; injection heq
        exact absurd h2 (by decide)
      | [x, y], heq =>
        have h2 : '-' = '\n' := by
          injection heq with h1 heq; injection heq with h2 heq; injection heq
        exact absurd h2 (by decide)
      | x :: y :: z :: rest2, heq =>
        have hx : x = '-' := by injection heq
        have heq2 := heq
        injection heq2 with h1 heq2
        injection heq2 with h2 heq2
        injection heq2 with h3 heq2
        exact h rest2 hc (by rw [hx, h2, h3])
    have hstep : splitDelim ((c :: rest) ++ delim ++ t)
        = consHead c (splitDelim (rest ++ delim ++ t)) := by
      have := splitDelim_cons_ne c (rest ++ delim ++ t) hex
      simpa using this
    rw [hstep, ih hs]
    rfl

theorem length_splitDelim (s : List Char) :
    (splitDelim s).length = countDelim s + 1 := by
  induction s using splitDelim.induct with
  | case1 => rfl
  | case2 rest ih =>
    show (splitDelim (delim ++ rest)).length = countDelim (delim ++ rest) + 1
    rw [splitDelim_delim_append]
    have hc : countDelim (delim ++ rest) = countDelim rest + 1 := rfl
    simp [hc, ih]
  | case3 c rest h ih =>
    rw [splitDelim_cons_ne c rest h, countDelim_cons_ne c rest h]
    cases hs : splitDelim rest with
    | nil => exact absurd hs (splitDelim_ne_nil rest)
    | cons a l =>
      rw [hs] at ih
      simp [consHead] at ih ⊢
      omega

theorem startsWithDelim_of_splitDelim (s : List Char) (a : List Char)
    (l : List (List Char)) (hsp : splitDelim s = [] :: a :: l) :
    startsWithDelim s = true := by
  induction s using splitDelim.induct with
  | case1 => simp [splitDelim] at hsp
  | case2 rest ih => rfl
  | case3 c rest h ih =>
    rw [splitDelim_cons_ne c rest h] at hsp
    exfalso
    cases hr : splitDelim rest with
    | nil => exact splitDelim_ne_nil rest hr
    | cons x xs =>
      rw [hr] at hsp
      simp [consHead] at hsp

theorem joinDelim_consHead (c : Char) (l : List (List Char)) (hl : l ≠ []) :
    joinDelim (consHead c l) = c :: joinDelim l := by
  match l with
  | [x] => rfl
  | x :: y :: ys => rfl

theorem joinDelim_splitDelim (s : List Char) :
    joinDelim (splitDelim s) = s := by
  induction s using splitDelim.induct with
  | case1 => rfl
  | case2 rest ih =>
    show joinDelim (splitDelim (delim ++ rest)) = delim ++ rest
    rw [splitDelim_delim_append]
    cases hr : splitDelim rest with
    | nil => exact absurd hr (splitDelim_ne_nil rest)
    | cons x xs =>
      rw [hr] at ih
      show joinDelim ([] :: x :: xs) = delim ++ rest
      show [] ++ delim ++ joinDelim (x :: xs) = delim ++ rest
      simp [ih]
  | case3 c rest h ih =>
    rw [splitDelim_cons_ne c rest h,
        joinDelim_consHead c (splitDelim rest) (splitDelim_ne_nil rest), ih]

theorem fromStr_eq_of_split (L : List Char → Except Unit (List Yaml))
    (p : Path) (text fm s2 : List Char) (segs : List (List Char))
    (hsp : splitDelim text = [] :: fm :: s2 :: segs) :
    fromStr L p text =
      match L fm with
      | .error _ => .panic
      | .ok [] => .panic
      | .ok (d :: _) =>
        .doc ⟨d, trimChars (joinDelim (s2 :: segs)) ++ ['\n'], p⟩ := by
  unfold fromStr
  rw [hsp]

theorem fromStr_eq_default (L : List Char → Except Unit (List Yaml))
    (p : Path) (text : List Char)
    (h : ∀ (fm s2 : List Char) (segs : List (List Char)),
      splitDelim text ≠ [] :: fm :: s2 :: segs) :
    fromStr L p text = .doc ⟨Yaml.null, text, p⟩ := by
  unfold fromStr
  split
  · rename_i fm s2 segs heq
    exact absurd heq (h fm s2 segs)
  · rfl

/-- Claim C2: for every text of the form `---\n<meta>\n---\n<rest>`
whose front-matter segment contains no further delimiter and parses to
at least one structured document, `Document::from_str` yields metadata
equal to the first parsed document and body equal to `trim(<rest>)`
with a single trailing newline appended (by `joinDelim_splitDelim`,
`<rest>` is exactly the post-front-matter segments rejoined with the
delimiter). -/
theorem fromStr_frontmatter (L : List Char → Except Unit (List Yaml))
    (p : Path) (meta rest : List Char) (d : Yaml) (ds : List Yaml)
    (hmeta : hasDelim (meta ++ ['\n']) = false)
    (hparse : L (meta ++ ['\n']) = .ok (d :: ds)) :
    fromStr L p (delim ++ meta ++ ['\n'] ++ delim ++ rest)
      = .doc ⟨d, trimChars rest ++ ['\n'], p⟩ := by
  have hassoc : delim ++ meta ++ ['\n'] ++ delim ++ rest
      = delim ++ ((meta ++ ['\n']) ++ delim ++ rest) := by
    simp [List.append_assoc]
  cases hr : splitDelim rest with
  | nil => exact absurd hr (splitDelim_ne_nil rest)
  | cons s2 segs =>
    have hsp : splitDelim (delim ++ meta ++ ['\n'] ++ delim ++ rest)
        = [] :: (meta ++ ['\n']) :: s2 :: segs := by
      rw [hassoc, splitDelim_delim_append,
          splitDelim_noDelim_append _ _ hmeta, hr]
    rw [fromStr_eq_of_split L p _ _ _ _ hsp, hparse]
    have hjoin : joinDelim (s2 :: segs) = rest := by
      rw [← hr, joinDelim_splitDelim]
    rw [hjoin]

/-- Witness for C2 at the repository's own test input
`---\ntitle: Foo\n---\n\nDocument body`. -/
theorem fromStr_frontmatter_witness :
    hasDelim ("title: Foo\n".toList) = false ∧
    nullDocLoader ("title: Foo\n".toList) = .ok [Yaml.null] ∧
    fromStr nullDocLoader [] (delim ++ "title: Foo".toList ++ ['\n'] ++
        delim ++ "\nDocument body".toList)
      = .doc ⟨Yaml.null, "Document body\n".toList, []⟩ :=
  ⟨by decide, rfl,
    fromStr_frontmatter nullDocLoader [] ("title: Foo".toList)
      ("\nDocument body".toList) Yaml.null [] (by decide) rfl⟩

/-- Claim C3: for every input text that does not begin with the
delimiter line `---\n`, or contains fewer than two delimiter
occurrences, `Document::from_str` yields `Yaml::Null` metadata and a
body exactly equal to the input text, verbatim. -/
theorem fromStr_no_frontmatter (L : List Char → Except Unit (List Yaml))
    (p : Path) (text : List Char)
    (h : startsWithDelim text = false ∨ countDelim text < 2) :
    fromStr L p text = .doc ⟨Yaml.null, text, p⟩ := by
  apply fromStr_eq_default
  intro fm s2 segs hsp
  rcases h with h | h
  · rw [startsWithDelim_of_splitDelim text fm (s2 :: segs) hsp] at h
    cases h
  · have hl := length_splitDelim text
    rw [hsp] at hl
    simp at hl
    omega

/-- Witness for C3 at a plain text and at the repository's faux
front-matter test input `---\nThis is the body of the document.`. -/
theorem fromStr_no_frontmatter_witness :
    (startsWithDelim ("Some body".toList) = false ∨
      countDelim ("Some body".toList) < 2) ∧
    fromStr nullDocLoader [] ("Some body".toList)
      = .doc ⟨Yaml.null, "Some body".toList, []⟩ ∧
    fromStr nullDocLoader [] ("---\nThis is the body.".toList)
      = .doc ⟨Yaml.null, "---\nThis is the body.".toList, []⟩ :=
  ⟨Or.inl (by decide),
    fromStr_no_frontmatter nullDocLoader [] ("Some body".toList)
      (Or.inl (by decide)),
    fromStr_no_frontmatter nullDocLoader [] ("---\nThis is the body.".toList)
      (Or.inr (by decide))⟩

/-- Counterexample to claim C1 as stated: on an input whose
front-matter segment fails to parse, `Document::from_str` panics (the
`unwrap()` on line 101); it does not report a `MetadataParseError`
result — indeed its return type carries no error channel at all. -/
theorem fromStr_parse_failure_is_panic :
    fromStr failLoader [] ("---\ntitle: [\n---\nbody".toList)
      = FromStrOutcome.panic := rfl

/-- Amended claim C1: for every input text beginning with the
front-matter delimiter and containing at least two delimiter
occurrences, if the structured-data parse of the front-matter segment
fails, `Document::from_str` panics (it neither succeeds nor returns a
`MetadataParseError`). -/
theorem fromStr_parse_failure_panics (L : List Char → Except Unit (List Yaml))
    (p : Path) (text fm s2 : List Char) (segs : List (List Char))
    (hsp : splitDelim text = [] :: fm :: s2 :: segs)
    (herr : L fm = .error ()) :
    fromStr L p text = .panic := by
  rw [fromStr_eq_of_split L p text fm s2 segs hsp, herr]

/-- Witness for the amended claim C1 at a concrete malformed input. -/
theorem fromStr_parse_failure_panics_witness :
    splitDelim ("---\nx\n---\ny".toList)
      = [("".toList), "x\n".toList, "y".toList] ∧
    failLoader ("x\n".toList) = .error () ∧
    fromStr failLoader [] ("---\nx\n---\ny".toList) = .panic :=
  ⟨by decide, rfl,
    fromStr_parse_failure_panics failLoader [] ("---\nx\n---\ny".toList)
      ("x\n".toList) ("y".toList) [] (by decide) rfl⟩

/-- Counterexample to claim C9 as stated: `Document::from_str` is not
total — on `---\n---\nbody`, whose empty front-matter segment parses to
an empty list of structured documents, the indexing `[0]` on line 101
panics instead of producing a Document. -/
theorem fromStr_empty_frontmatter_is_panic :
    fromStr emptyLoader [] ("---\n---\nbody".toList)
      = FromStrOutcome.panic := rfl

/-- Amended claim C9: `Document::from_str` returns a Document for every
input text except exactly those that begin with the delimiter, contain
at least two delimiter occurrences, and whose front-matter segment
either fails to parse or parses to an empty list of structured
documents; on those it panics. -/
theorem fromStr_panic_characterization
    (L : List Char → Except Unit (List Yaml)) (p : Path) (text : List Char) :
    fromStr L p text = .panic ↔
      ∃ (fm s2 : List Char) (segs : List (List Char)),
        splitDelim text = [] :: fm :: s2 :: segs ∧
          (L fm = .error () ∨ L fm = .ok []) := by
  constructor
  · intro h
    unfold fromStr at h
    split at h
    · rename_i fm s2 segs heq
      refine ⟨fm, s2, segs, heq, ?_⟩
      cases hL : L fm with
      | error e =>
        cases e
        exact Or.inl rfl
      | ok l =>
        cases l with
        | nil => exact Or.inr rfl
        | cons d ds =>
          rw [hL] at h
          exact FromStrOutcome.noConfusion h
    · exact FromStrOutcome.noConfusion h
  · rintro ⟨fm, s2, segs, hsp, herr | hok⟩
    · rw [fromStr_eq_of_split L p text fm s2 segs hsp, herr]
    · rw [fromStr_eq_of_split L p text fm s2 segs hsp, hok]

/-- The `SmithyError` struct from errors.rs: a descriptive message (the
optional boxed cause is not modelled). -/
structure SmithyError where
  descr : String
deriving DecidableEq

/-- A plugin seen by the pipeline runner: its `process` method, a
transformation of the whole document collection (a trait object in the
source). -/
abbrev PluginFun := List Document → Except SmithyError (List Document)

/-- The `SmithyPlugin` trait's default `process` (lib.rs lines 74-80)
for a plugin overriding only `process_file`: iterate over the files in
order, pushing each `process_file` output, returning the first error via
the `?` operator. -/
def defaultProcess (processFile : Document → Except SmithyError Document) :
    List Document → Except SmithyError (List Document)
  | [] => .ok []
  | f :: fs => do
    let f2 ← processFile f
    let rest ← defaultProcess processFile fs
    pure (f2 :: rest)

/-- Modelled from the spec: the documented default fold for `process` —
"for each Document in order, invoke `process_file`, collecting outputs
in order, aborting on the first failure (remaining documents in the
batch are not processed)". -/
def specProcessFold (processFile : Document → Except SmithyError Document)
    (files : List Document) : Except SmithyError (List Document) :=
  files.mapM processFile

/-- The plugin loop of `Smithy::build` (lib.rs lines 55-57): fold the
collection through each plugin's `process` in registration order,
propagating the first error via `?`. -/
def runPlugins : List PluginFun → List Document →
    Except SmithyError (List Document)
  | [], docs => .ok docs
  | pl :: pls, docs => do
    let docs2 ← pl docs
    runPlugins pls docs2

/-- The filesystem state `Smithy::build` writes into: the set of
existing directories and a map from file path to contents. -/
structure OutFS where
  dirs : List Path
  files : List (Path × List Char)

/-- `File::create` + `write`: create or overwrite the entry at a key. -/
def setFile (k : Path) (v : List Char) :
    List (Path × List Char) → List (Path × List Char)
  | [] => [(k, v)]
  | (k2, v2) :: rest =>
    if k2 = k then (k, v) :: rest else (k2, v2) :: setFile k v rest

/-- Look up the contents of the file at a key. -/
def getFile (k : Path) : List (Path × List Char) → Option (List Char)
  | [] => none
  | (k2, v2) :: rest => if k2 = k then some v2 else getFile k rest

/-- `fs::create_dir_all`: ensure a directory and all its ancestors
exist. -/
def createDirAll (p : Path) (dirs : List Path) : List Path :=
  p.inits ++ dirs

/-- The writer loop body of `Smithy::build` (lib.rs lines 61-67): join
the output root with the document's path, create any missing parent
directories when the joined path has a parent, then create/overwrite the
target file with the document's body bytes. -/
def writeDoc (root : Path) (fs : OutFS) (d : Document) : OutFS :=
  let full := root ++ d.path
  if full = [] then ⟨fs.dirs, setFile full d.body fs.files⟩
  else ⟨createDirAll full.dropLast fs.dirs, setFile full d.body fs.files⟩

/-- The `SmithyError` produced by `From<io::Error>` when
`fs::remove_dir_all` fails because the directory is absent. -/
def removeDirError : SmithyError :=
  ⟨"IO error: No such file or directory (os error 2)"⟩

/-- `fs::remove_dir_all(&self.output_path)` (lib.rs line 59): remove
the directory and everything beneath it; it is an error (mapped through
`From<io::Error>` by `?`) when the directory does not exist. -/
def removeDirAll (root : Path) (fs : OutFS) : Except SmithyError OutFS :=
  if root ∈ fs.dirs then
    .ok ⟨fs.dirs.filter (fun p => !(root.isPrefixOf p)),
      fs.files.filter (fun kv => !(root.isPrefixOf kv.1))⟩
  else .error removeDirError

/-- `Smithy::build` (lib.rs lines 55-69) from the plugin stage on: run
every plugin over the loaded collection, clear the output directory,
then write each final document.  Loading (lines 39-53) is abstracted as
the already-loaded collection `docs`. -/
def build (plugins : List PluginFun) (docs : List Document) (root : Path)
    (fs : OutFS) : Except SmithyError OutFS := do
  let final ← runPlugins plugins docs
  let fs2 ← removeDirAll root fs
  pure (final.foldl (writeDoc root) fs2)

/-- A plugin whose `process` fails on every collection. -/
def erroringPlugin : PluginFun := fun _ => .error ⟨"plugin failed"⟩

/-- Claim C4: a plugin overriding only `process_file` produces, via the
trait's default `process`, the same Result as the documented fold: apply
the transform to each Document in order, collect outputs in order, and
return the first error without processing the remaining documents. -/
theorem defaultProcess_eq_specProcessFold
    (processFile : Document → Except SmithyError Document)
    (files : List Document) :
    defaultProcess processFile files = specProcessFold processFile files := by
  induction files with
  | nil =>
    rw [specProcessFold, List.mapM_nil]
    rfl
  | cons f fs ih =>
    rw [specProcessFold, List.mapM_cons]
    rw [specProcessFold] at ih
    rw [defaultProcess, ih]

theorem runPlugins_append (l1 l2 : List PluginFun) (docs : List Document) :
    runPlugins (l1 ++ l2) docs =
      match runPlugins l1 docs with
      | .ok d => runPlugins l2 d
      | .error e => .error e := by
  induction l1 generalizing docs with
  | nil => rfl
  | cons pl pls ih =>
    show runPlugins (pl :: (pls ++ l2)) docs = _
    cases h : pl docs with
    | error e =>
      simp only [runPlugins, h]
      rfl
    | ok d =>
      simp only [runPlugins, h]
      exact ih d

/-- Claim C5: if some plugin's `process` returns an error, `build`
returns that error; no later plugin runs (the result is independent of
`ps2`) and the Writer stage is never reached (the result is independent
of the output filesystem `fs`, which in particular is not cleared and
receives no file). -/
theorem build_plugin_error (ps1 : List PluginFun) (pl : PluginFun)
    (ps2 : List PluginFun) (docs docs1 : List Document) (root : Path)
    (fs : OutFS) (e : SmithyError)
    (h1 : runPlugins ps1 docs = .ok docs1)
    (h2 : pl docs1 = .error e) :
    build (ps1 ++ pl :: ps2) docs root fs = .error e := by
  have hrun : runPlugins (ps1 ++ pl :: ps2) docs = .error e := by
    rw [runPlugins_append, h1]
    show runPlugins (pl :: ps2) docs1 = .error e
    simp only [runPlugins, h2]
    rfl
  simp only [build, hrun]
  rfl

/-- Witness for C5: a failing plugin aborts a concrete build. -/
theorem build_plugin_error_witness :
    runPlugins [] [] = Except.ok [] ∧
    erroringPlugin [] = Except.error ⟨"plugin failed"⟩ ∧
    build [erroringPlugin] [] [] ⟨[], []⟩ = Except.error ⟨"plugin failed"⟩ :=
  ⟨rfl, rfl,
    build_plugin_error [] erroringPlugin [] [] [] [] ⟨[], []⟩
      ⟨"plugin failed"⟩ rfl rfl⟩

/-- Claim C6: with a plugin list of length zero, the pipeline-runner
stage is the identity on the collection, and `build` passes the loaded
collection to the Writer unchanged. -/
theorem build_no_plugins (docs : List Document) (root : Path) (fs : OutFS) :
    runPlugins [] docs = .ok docs ∧
    build [] docs root fs =
      (removeDirAll root fs).map (fun fs2 => docs.foldl (writeDoc root) fs2) := by
  refine ⟨rfl, ?_⟩
  cases h : removeDirAll root fs with
  | error e =>
    simp only [build]
    rw [h]
    rfl
  | ok fs2 =>
    simp only [build]
    rw [h]
    rfl

/-- Claim C10: when the output directory does not exist as the write
stage begins, `build` returns the IOError arising from
`fs::remove_dir_all`, even though every plugin succeeded; no filesystem
state is produced, so no output file is written. -/
theorem build_output_dir_missing (plugins : List PluginFun)
    (docs final : List Document) (root : Path) (fs : OutFS)
    (h1 : runPlugins plugins docs = .ok final)
    (h2 : root ∉ fs.dirs) :
    build plugins docs root fs = .error removeDirError := by
  have hrm : removeDirAll root fs = .error removeDirError := by
    simp only [removeDirAll]
    rw [if_neg h2]
  simp only [build, h1, hrm]
  rfl

/-- Witness for C10 at a concrete state with no output directory. -/
theorem build_output_dir_missing_witness :
    runPlugins [] [] = Except.ok [] ∧
    ["out".toList] ∉ (OutFS.mk [] []).dirs ∧
    build [] [] ["out".toList] ⟨[], []⟩ = Except.error removeDirError :=
  ⟨rfl, by simp,
    build_output_dir_missing [] [] [] ["out".toList] ⟨[], []⟩ rfl (by simp)⟩

theorem getFile_setFile_self (k : Path) (v : List Char)
    (l : List (Path × List Char)) :
    getFile k (setFile k v l) = some v := by
  induction l with
  | nil => simp [setFile, getFile]
  | cons kv rest ih =>
    obtain ⟨k2, v2⟩ := kv
    by_cases h : k2 = k
    · simp [setFile, getFile, h]
    · simp [setFile, getFile, h, ih]

theorem getFile_setFile_ne (k k2 : Path) (v : List Char)
    (l : List (Path × List Char)) (h : k2 ≠ k) :
    getFile k (setFile k2 v l) = getFile k l := by
  induction l with
  | nil => simp [setFile, getFile, h]
  | cons kv rest ih =>
    obtain ⟨k3, v3⟩ := kv
    by_cases h3 : k3 = k2
    · subst h3
      simp [setFile, getFile, h, ih]
    · by_cases hk : k3 = k
      · simp [setFile, getFile, h3, hk, Ne.symm h]
      · simp [setFile, getFile, h3, hk, ih]

theorem getFile_filter_none (k : Path) (P : Path × List Char → Bool)
    (l : List (Path × List Char)) (hP : ∀ v, P (k, v) = false) :
    getFile k (l.filter P) = none := by
  induction l with
  | nil => rfl
  | cons kv rest ih =>
    obtain ⟨k2, v2⟩ := kv
    by_cases hk : k2 = k
    · subst hk
      rw [List.filter_cons, hP v2]
      simpa using ih
    · rw [List.filter_cons]
      cases hPv : P (k2, v2) with
      | false => simpa using ih
      | true => simp [getFile, hk, ih]

theorem writeDoc_files (root : Path) (fs : OutFS) (d : Document) :
    (writeDoc root fs d).files = setFile (root ++ d.path) d.body fs.files := by
  simp only [writeDoc]
  split <;> rfl

theorem writeDoc_dirs_sub (root : Path) (fs : OutFS) (d : Document) :
    fs.dirs ⊆ (writeDoc root fs d).dirs := by
  simp only [writeDoc]
  split
  · exact fun q hq => hq
  · exact List.subset_append_right _ _

theorem writeDoc_dirs_of_ne (root : Path) (fs : OutFS) (d : Document)
    (hne : root ++ d.path ≠ []) :
    (writeDoc root fs d).dirs = createDirAll (root ++ d.path).dropLast fs.dirs := by
  simp only [writeDoc]
  rw [if_neg hne]

theorem foldl_writeDoc_getFile_ne (root k : Path) (ds : List Document)
    (fs : OutFS) (h : ∀ d ∈ ds, root ++ d.path ≠ k) :
    getFile k ((ds.foldl (writeDoc root) fs).files) = getFile k fs.files := by
  induction ds generalizing fs with
  | nil => rfl
  | cons d ds ih =>
    rw [List.foldl_cons,
      ih (writeDoc root fs d) (fun d2 hd2 => h d2 (List.mem_cons_of_mem d hd2)),
      writeDoc_files]
    exact getFile_setFile_ne k (root ++ d.path) d.body fs.files
      (h d (List.mem_cons_self d ds))

theorem foldl_writeDoc_dirs_sub (root : Path) (ds : List Document)
    (fs : OutFS) :
    fs.dirs ⊆ ((ds.foldl (writeDoc root) fs).dirs) := by
  induction ds generalizing fs with
  | nil => exact fun q hq => hq
  | cons d ds ih =>
    rw [List.foldl_cons]
    exact fun q hq => ih (writeDoc root fs d) (writeDoc_dirs_sub root fs d hq)

/-- Claim C7: once the plugin chain has succeeded, `build` removes the
entire output subtree before writing — even when the final collection
is empty — so after a successful build, any path under the output root
that no final document writes to holds no file. -/
theorem build_clears_output (plugins : List PluginFun)
    (docs final : List Document) (root : Path) (fs : OutFS)
    (h1 : runPlugins plugins docs = .ok final)
    (h2 : root ∈ fs.dirs) :
    ∃ fsOut, build plugins docs root fs = .ok fsOut ∧
      ∀ k : Path, root.isPrefixOf k = true →
        (∀ d ∈ final, root ++ d.path ≠ k) →
        getFile k fsOut.files = none := by
  have hrm : removeDirAll root fs = .ok
      ⟨fs.dirs.filter (fun p => !(root.isPrefixOf p)),
        fs.files.filter (fun kv => !(root.isPrefixOf kv.1))⟩ := by
    simp only [removeDirAll]
    rw [if_pos h2]
  refine ⟨final.foldl (writeDoc root)
      ⟨fs.dirs.filter (fun p => !(root.isPrefixOf p)),
        fs.files.filter (fun kv => !(root.isPrefixOf kv.1))⟩, ?_, ?_⟩
  · simp only [build, h1, hrm]
    rfl
  · intro k hk hnk
    rw [foldl_writeDoc_getFile_ne root k final _ hnk]
    apply getFile_filter_none
    intro v
    simp [hk]

/-- Witness for C7: a pre-existing `out/foo.txt` is gone after a
successful empty build. -/
theorem build_clears_output_witness :
    runPlugins [] [] = Except.ok [] ∧
    ["out".toList] ∈ (OutFS.mk [["out".toList]]
      [(["out".toList, "foo.txt".toList], "x".toList)]).dirs ∧
    (∃ fsOut, build [] [] ["out".toList]
        ⟨[["out".toList]], [(["out".toList, "foo.txt".toList], "x".toList)]⟩
        = .ok fsOut ∧
      ∀ k : Path, (["out".toList] : Path).isPrefixOf k = true →
        (∀ d ∈ ([] : List Document), ["out".toList] ++ d.path ≠ k) →
        getFile k fsOut.files = none) :=
  ⟨rfl, by simp,
    build_clears_output [] [] [] ["out".toList]
      ⟨[["out".toList]], [(["out".toList, "foo.txt".toList], "x".toList)]⟩
      rfl (by simp)⟩

/-- Claim C8: for a document of the final collection whose path no
later document reuses, a successful `build` leaves the file at the
output root joined with the document's path holding exactly the
document's body, and every parent directory of that file exists. -/
theorem build_writes_documents (plugins : List PluginFun)
    (docs : List Document) (ds1 ds2 : List Document) (d : Document)
    (root : Path) (fs : OutFS)
    (h1 : runPlugins plugins docs = .ok (ds1 ++ d :: ds2))
    (h2 : root ∈ fs.dirs)
    (hlast : ∀ d2 ∈ ds2, d2.path ≠ d.path)
    (hne : root ++ d.path ≠ []) :
    ∃ fsOut, build plugins docs root fs = .ok fsOut ∧
      getFile (root ++ d.path) fsOut.files = some d.body ∧
      ∀ q : Path, q <+: (root ++ d.path).dropLast → q ∈ fsOut.dirs := by
  have hrm : removeDirAll root fs = .ok
      ⟨fs.dirs.filter (fun p => !(root.isPrefixOf p)),
        fs.files.filter (fun kv => !(root.isPrefixOf kv.1))⟩ := by
    simp only [removeDirAll]
    rw [if_pos h2]
  set cleared : OutFS :=
    ⟨fs.dirs.filter (fun p => !(root.isPrefixOf p)),
      fs.files.filter (fun kv => !(root.isPrefixOf kv.1))⟩ with hcleared
  refine ⟨(ds1 ++ d :: ds2).foldl (writeDoc root) cleared, ?_, ?_, ?_⟩
  · simp only [build, h1, hrm]
    rfl
  · rw [List.foldl_append, List.foldl_cons]
    have hds2 : ∀ d2 ∈ ds2, root ++ d2.path ≠ root ++ d.path := by
      intro d2 hd2 heq
      exact hlast d2 hd2 (List.append_cancel_left heq)
    rw [foldl_writeDoc_getFile_ne root (root ++ d.path) ds2 _ hds2,
      writeDoc_files]
    exact getFile_setFile_self (root ++ d.path) d.body _
  · intro q hq
    rw [List.foldl_append, List.foldl_cons]
    apply foldl_writeDoc_dirs_sub
    rw [writeDoc_dirs_of_ne root _ d hne]
    unfold createDirAll
    exact List.mem_append_left _ ((List.mem_inits q _).mpr hq)

/-- Witness for C8: one document written to `out/doc.txt`. -/
theorem build_writes_documents_witness :
    runPlugins [] [Document.mk Yaml.null ("Hello".toList) [("doc.txt".toList)]]
      = Except.ok [Document.mk Yaml.null ("Hello".toList) [("doc.txt".toList)]] ∧
    (∃ fsOut,
      build [] [Document.mk Yaml.null ("Hello".toList) [("doc.txt".toList)]]
          ["out".toList] ⟨[["out".toList]], []⟩ = .ok fsOut ∧
      getFile (["out".toList] ++ [("doc.txt".toList)]) fsOut.files
        = some ("Hello".toList) ∧
      ∀ q : Path, q <+: ((["out".toList] : Path) ++ [("doc.txt".toList)]).dropLast →
        q ∈ fsOut.dirs) :=
  ⟨rfl,
    build_writes_documents [] [Document.mk Yaml.null ("Hello".toList) [("doc.txt".toList)]]
      [] [] (Document.mk Yaml.null ("Hello".toList) [("doc.txt".toList)])
      ["out".toList] ⟨[["out".toList]], []⟩ rfl (by simp) (by simp) (by simp)⟩

end Smithy
